import Mathlib

/-!
Verification development for the code-search matcher of this repository
(the Go `search` package: `compile`, `readerGrep.Find`, `concurrentFind`,
`lowerRegexpASCII`, `longestLiteral`, `readAll`).

Files are modelled as lists of bytes (`List Nat`).  The regex engine is
external to the package, so a compiled regex is modelled as its observable
behaviour: the function returning the list of leftmost, non-overlapping
match locations (`FindAllIndex`); `FindIndex` is its first element.
-/

namespace SearcherProof

/-! ### Constants from the source -/

/-- Constant `maxLineSize = 500` (declared in the source; not enforced by the scanner). -/
def maxLineSize : Nat := 500

/-- Constant `maxFileMatches = 1000`, the limit on matching files returned. -/
def maxFileMatches : Nat := 1000

/-- Constant `maxLineMatches = 100`, the limit on matches returned in a file. -/
def maxLineMatches : Nat := 100

/-- Constant `maxOffsets = 10`, the limit on matches returned on a line. -/
def maxOffsets : Nat := 10

/-- Constant `numWorkers = 8`, the number of concurrent workers per `concurrentFind`. -/
def numWorkers : Nat := 8

/-! ### Byte-level helpers (Go standard library functions used by the source) -/

/-- Modelled from the spec: `bytesToLowerASCII` is called by `Find` but defined
outside the files at hand; the spec describes it as a non-Unicode ASCII
lower-case, bytes `'A'..'Z'` offset by 32.  This is its action on one byte. -/
def asciiLowerByte (c : Nat) : Nat := if 65 ≤ c ∧ c ≤ 90 then c + 32 else c

/-- Modelled from the spec: `bytesToLowerASCII(dst, src)` lower-cases every
byte of `src` (ASCII-only) into `dst`; we return the transformed list. -/
def bytesToLowerASCII (l : List Nat) : List Nat := l.map asciiLowerByte

/-- Models `bytes.Count(l, []byte{'\n'})`: the number of newline bytes. -/
def countNl (l : List Nat) : Nat := l.count 10

/-- First index of a newline byte, if any (helper for `indexNl`). -/
def firstNlIdx : List Nat → Option Nat
  | [] => none
  | b :: t => if b = 10 then some 0 else (firstNlIdx t).map (· + 1)

/-- Models `bytes.Index(l, []byte{'\n'})`: first index of `'\n'`, or `-1`. -/
def indexNl (l : List Nat) : Int :=
  match firstNlIdx l with
  | some i => (i : Int)
  | none => -1

/-- Models `bytes.LastIndex(l, []byte{'\n'})`: last index of `'\n'`, or `-1`. -/
def lastIndexNl : List Nat → Int
  | [] => -1
  | b :: t => if 0 ≤ lastIndexNl t then lastIndexNl t + 1 else if b = 10 then 0 else -1

/-- Models Go slicing `buf[i:j]` (for in-range `i ≤ j`; clamping otherwise). -/
def goSliceN (buf : List Nat) (i j : Nat) : List Nat := (buf.take j).drop i

/-- Models `utf8.RuneCount` on valid UTF-8 input: the number of runes is the
number of bytes that are not UTF-8 continuation bytes (`0x80..0xBF`). -/
def runeCount (l : List Nat) : Nat := (l.filter (fun b => !(128 ≤ b && b < 192))).length

/-- Predicate `leadsWith p l`: true when `p` occurs at the very front of `l`. -/
def leadsWith : List Nat → List Nat → Bool
  | [], _ => true
  | _ :: _, [] => false
  | a :: p, b :: l => a == b && leadsWith p l

/-- Models `bytes.Contains(l, sub)` (true for the empty `sub`, as in Go). -/
def containsSub : List Nat → List Nat → Bool
  | l, sub =>
    if leadsWith sub l then true
    else
      match l with
      | [] => false
      | _ :: t => containsSub t sub

/-- Models `bytes.SplitN(l, []byte{'\n'}, n)`: split on `'\n'` into at most
`n` pieces, the last piece holding the unsplit remainder. -/
def splitNNl : Nat → List Nat → List (List Nat)
  | 0, _ => []
  | 1, l => [l]
  | n + 2, l =>
    match firstNlIdx l with
    | none => [l]
    | some i => l.take i :: splitNNl (n + 1) (l.drop (i + 1))

/-! ### Data model (`protocol`, `store`) -/

/-- Error values the modelled functions can return. -/
inductive GoErr where
  | readerTooLarge : GoErr
  | deadlineExceeded : GoErr
deriving DecidableEq, Repr

/-- Structure `protocol.LineMatch`. -/
structure LineMatch where
  Preview : List Nat
  LineNumber : Nat
  OffsetAndLengths : List (Int × Int)
  LimitHit : Bool
deriving DecidableEq, Repr

/-- Structure `protocol.FileMatch`. -/
structure FileMatch where
  Path : List Nat
  LineMatches : List LineMatch
  LimitHit : Bool
deriving DecidableEq, Repr

/-- Structure `store.SrcFile`: a name and the file's bytes (the archive's
`DataFor` accessor is the `Data` field). -/
structure SrcFile where
  Name : List Nat
  Data : List Nat
deriving DecidableEq, Repr

/-- A compiled regex, modelled by its observable behaviour: the list of
leftmost non-overlapping match locations `FindAllIndex` would return
(uncapped; the scanner applies its own cap).  `FindIndex` is the head. -/
def Regex : Type := List Nat → List (Nat × Nat)

/-- Structure `readerGrep`: the compiled matcher program.  The scratch buffer
`transformBuf` is a reuse optimisation with no observable content and is not
modelled; `matchPath` is the external `pathmatch.PathMatcher`, modelled by
its `MatchPath` behaviour. -/
structure ReaderGrep where
  re : Option Regex
  ignoreCase : Bool
  matchPath : List Nat → Bool
  literalSubstring : List Nat

/-- Method `readerGrep.matchString`: path matching against the regex; a nil regex
matches everything.  (`strings.ToLower` is modelled ASCII-only, in line with
the byte-level model.) -/
def matchString (rg : ReaderGrep) (s : List Nat) : Bool :=
  match rg.re with
  | none => true
  | some re =>
    let s' := if rg.ignoreCase then bytesToLowerASCII s else s
    !(re s').isEmpty

/-! ### The File Scanner: `readerGrep.Find` -/

/-- Function `hydrateLineNumbers`: counts newlines between the previous bookmark and
the current match start, and returns the new bookmark (`lineStart`). -/
def hydrateLineNumbers (fileBuf : List Nat) (lastLineNumber lastMatchIndex lineStart s : Nat) :
    Nat × Nat :=
  (lastLineNumber + countNl (goSliceN fileBuf lastMatchIndex s), lineStart)

/-- The per-line records emitted when a match's line span crosses `'\n'`
(the `len(matchLines) > 1` branch of `Find`). -/
def multilinePieces (buf : List Nat) (llh : Bool) (lineStart lineEnd s e offset : Nat)
    (lineNumber : Nat) (matchLines : List (List Nat)) : List LineMatch :=
  matchLines.enum.map fun p =>
    let i := p.1
    let line := p.2
    let offsetStart : Int := if i = 0 then (offset : Int) else 0
    let le : Int :=
      if i = 0 then
        lastIndexNl (buf.take (lineStart + line.length + 1)) - (s : Int)
      else if i = matchLines.length - 1 then
        (e : Int) - (lastIndexNl (buf.take e) + 1)
      else (line.length : Int)
    { Preview := goSliceN buf lineStart lineEnd
      LineNumber := lineNumber + i
      OffsetAndLengths := [(offsetStart, le)]
      LimitHit := llh }

/-- One iteration of `Find`'s loop over the match location `[s, e)`:
returns the emitted `LineMatch`es and the new
(`lastLineNumber`, `lastMatchIndex`, `lastLineStartIndex`) state.  The
local Go ints that can be negative (`lineStart` before its clamps,
`lineEnd`) are computed in `Int`; the state components remain non-negative
at these program points. -/
def findStep (buf : List Nat) (llh : Bool)
    (s e lastLineNumber lastMatchIndex lastLineStartIndex : Nat) :
    List LineMatch × Nat × Nat × Nat :=
  let ls0 : Int := (lastLineStartIndex : Int) + lastIndexNl (goSliceN buf lastLineStartIndex s)
  let lastLSI : Nat := if 0 < ls0 then (ls0 + 1).toNat else lastLineStartIndex
  let ls1 : Int := if ls0 < (buf.length : Int) - 1 ∧ 0 < buf.length then ls0 + 1 else ls0
  let le0 : Int := (e : Int) + indexNl (buf.drop e)
  let lineStart : Nat := if ls1 < 0 then s else ls1.toNat
  let lineEnd : Nat := if le0 < 0 then e else le0.toNat
  let offset : Nat := runeCount (goSliceN buf lastLSI s)
  let length : Nat := runeCount (goSliceN buf s e)
  let hd := hydrateLineNumbers buf lastLineNumber lastMatchIndex lineStart s
  let lineNumber : Nat := hd.1
  let matchIndex : Nat := hd.2
  let matchBuf : List Nat := goSliceN buf lineStart lineEnd
  let matchLines : List (List Nat) := splitNNl (maxLineMatches + 1) matchBuf
  if 1 < matchLines.length then
    (multilinePieces buf llh lineStart lineEnd s e offset lineNumber matchLines,
     lineNumber, matchIndex, lineStart)
  else
    ([{ Preview := matchBuf, LineNumber := lineNumber,
        OffsetAndLengths := [((offset : Int), (length : Int))], LimitHit := llh }],
     lineNumber, matchIndex, lastLSI)

/-- The main loop of `Find` over the collected match locations. -/
def findLoop (buf : List Nat) (llh : Bool) :
    List (Nat × Nat) → Nat → Nat → Nat → List LineMatch → List LineMatch
  | [], _, _, _, acc => acc
  | (s, e) :: rest, lastLineNumber, lastMatchIndex, lastLineStartIndex, acc =>
    let st := findStep buf llh s e lastLineNumber lastMatchIndex lastLineStartIndex
    findLoop buf llh rest st.2.1 st.2.2.1 st.2.2.2 (acc ++ st.1)

/-- Method `readerGrep.Find`.  Returns `none` where the Go code dereferences a nil
regex (a runtime panic); otherwise `some (lineMatches, limitHit, err)`,
mirroring the source's three return values. -/
def Find (rg : ReaderGrep) (fileBuf : List Nat) : Option (List LineMatch × Bool × Option GoErr) :=
  let fileMatchBuf := if rg.ignoreCase then bytesToLowerASCII fileBuf else fileBuf
  if containsSub fileMatchBuf rg.literalSubstring = false then some ([], false, none)
  else
    match rg.re with
    | none => none
    | some re =>
      match (re fileMatchBuf).head? with
      | none => some ([], false, none)
      | some _ =>
        let locs := (re fileMatchBuf).take maxFileMatches
        let lineLimitHit := locs.length == maxOffsets
        let ms := findLoop fileMatchBuf lineLimitHit locs 0 0 0 []
        some (ms, ms.length == maxLineMatches, none)

/-- Method `readerGrep.FindZip`: wraps `Find`'s results into a `FileMatch`. -/
def FindZip (rg : ReaderGrep) (f : SrcFile) : Option (FileMatch × Option GoErr) :=
  (Find rg f.Data).map fun r =>
    ({ Path := f.Name, LineMatches := r.1, LimitHit := r.2.1 }, r.2.2)

/-! ### A concrete regex: a non-empty literal pattern

Used to instantiate the abstract `Regex` on concrete inputs: the leftmost
non-overlapping occurrences of the literal `p :: ps`, as Go's engine returns
for a literal pattern. -/

/-- Scan for occurrences of the literal `p :: ps` starting at position
`pos`, with structural fuel so the scan evaluates by kernel reduction. -/
def findAllLitAux (p : Nat) (ps : List Nat) : Nat → List Nat → Nat → List (Nat × Nat)
  | 0, _, _ => []
  | _ + 1, [], _ => []
  | fuel + 1, b :: t, pos =>
    if leadsWith (p :: ps) (b :: t) then
      (pos, pos + (p :: ps).length) ::
        findAllLitAux p ps fuel (t.drop ps.length) (pos + 1 + ps.length)
    else
      findAllLitAux p ps fuel t (pos + 1)

/-- The `Regex` behaviour of the non-empty literal pattern `p :: ps`. -/
def litRegex (p : Nat) (ps : List Nat) : Regex := fun buf => findAllLitAux p ps buf.length buf 0

/-! ### The Concurrent Driver: `concurrentFind` -/

/-- Clamping of `fileMatchLimit` into `(0, maxFileMatches]` done at the top
of `concurrentFind` (`fileMatchLimit` is a Go int, so possibly ≤ 0). -/
def clampLimit (fileMatchLimit : Int) : Nat :=
  if fileMatchLimit > (maxFileMatches : Int) ∨ fileMatchLimit ≤ 0 then maxFileMatches
  else fileMatchLimit.toNat

/-- The path-only fast path of `concurrentFind`: append a path-only
`FileMatch` for every passing file until the limit would be exceeded. -/
def fastLoop (rg : ReaderGrep) (limit : Nat) : List SrcFile → List FileMatch → List FileMatch × Bool
  | [], acc => (acc, false)
  | f :: rest, acc =>
    if rg.matchPath f.Name && matchString rg f.Name then
      if acc.length < limit then
        fastLoop rg limit rest (acc ++ [{ Path := f.Name, LineMatches := [], LimitHit := false }])
      else (acc, true)
    else fastLoop rg limit rest acc

/-- The general path of `concurrentFind` under the canonical sequential
schedule (one worker draining the queue; the shared-state updates are the
mutex-guarded critical sections of the source).  A worker that sets
`limitHit` cancels the context, which every worker observes at the top of
its loop — hence the loop stops once `limitHit` holds.  `none` models a
worker panic (`Find` dereferencing a nil regex). -/
def generalLoop (rg : ReaderGrep) (limit : Nat) (pmp : Bool) :
    List SrcFile → List FileMatch → Bool → Option (List FileMatch × Bool × Option GoErr)
  | [], ms, limitHit => some (ms, limitHit, none)
  | f :: rest, ms, limitHit =>
    if limitHit then some (ms, limitHit, none)
    else if !(rg.matchPath f.Name) then generalLoop rg limit pmp rest ms limitHit
    else
      match FindZip rg f with
      | none => none
      | some (_fm, some e) => some (ms, limitHit, some e)
      | some (fm, none) =>
        let matched := !fm.LineMatches.isEmpty || (pmp && matchString rg f.Name)
        if matched then
          if ms.length < limit then generalLoop rg limit pmp rest (ms ++ [fm]) limitHit
          else generalLoop rg limit pmp rest ms true
        else generalLoop rg limit pmp rest ms limitHit

/-- Driver `concurrentFind`: flag forcing, limit clamping, then either the
path-only fast path (sequential in the source as well) or the worker pool,
the latter modelled under the canonical sequential schedule.  Deadlines are
not modelled (no worker is ever cancelled by timeout here). -/
def concurrentFind (rg : ReaderGrep) (files : List SrcFile) (fileMatchLimit : Int)
    (patternMatchesContent patternMatchesPaths : Bool) :
    Option (List FileMatch × Bool × Option GoErr) :=
  let pmc := if !patternMatchesContent && !patternMatchesPaths then true
             else patternMatchesContent
  let limit := clampLimit fileMatchLimit
  if patternMatchesPaths && (!pmc || rg.re.isNone) then
    let r := fastLoop rg limit files []
    some (r.1, r.2, none)
  else
    generalLoop rg limit patternMatchesPaths files [] false

/-! ### Shared-state transitions of the worker pool

Every mutation of the shared `matches`/`limitHit` pair happens inside the
`matchesmu` critical section of `concurrentFind`, so an arbitrary
interleaving of workers is a sequence of these two atomic steps. -/

/-- One `matchesmu` critical section: append a found `FileMatch` while below
the limit, otherwise record `limitHit` (and cancel). -/
inductive MatchesStep (limit : Nat) : List FileMatch × Bool → List FileMatch × Bool → Prop
  | append (ms : List FileMatch) (h : Bool) (fm : FileMatch) (hlt : ms.length < limit) :
      MatchesStep limit (ms, h) (ms ++ [fm], h)
  | hitLimit (ms : List FileMatch) (h : Bool) (hge : ¬ ms.length < limit) :
      MatchesStep limit (ms, h) (ms, true)

/-- Shared states reachable from the initial `([], false)` by any worker
interleaving. -/
inductive MatchesReach (limit : Nat) : List FileMatch × Bool → Prop
  | init : MatchesReach limit ([], false)
  | step {st st' : List FileMatch × Bool} :
      MatchesReach limit st → MatchesStep limit st st' → MatchesReach limit st'

/-! ### `compile`

The regex engine calls made by `compile` (`syntax.Parse`, the re-serialise
after `lowerRegexpASCII`, `regexp.Compile`, `LiteralPrefix`) are external;
they are abstracted as an engine record so that `compile`'s own control
flow (expression building, branch on the empty pattern, error propagation)
is taken from the source. -/

/-- Structure `protocol.PatternInfo` (the fields `compile` and the driver read). -/
structure PatternInfo where
  pattern : List Nat
  isRegExp : Bool
  isWordMatch : Bool
  isCaseSensitive : Bool
  pathPatternsAreRegExps : Bool
  pathPatternsAreCaseSensitive : Bool
deriving DecidableEq, Repr

/-- The external regex engine operations used by `compile`; `none` models a
parse/compile error return. -/
structure RegexEngine where
  lowerExpr : List Nat → Option (List Nat)
  compileRe : List Nat → Option Regex
  litPre : List Nat → List Nat

/-- Go `regexp.QuoteMeta` special bytes: `\.+*?()|[]{}^$`. -/
def quoteMetaSpecial (c : Nat) : Bool :=
  c == 92 || c == 46 || c == 43 || c == 42 || c == 63 || c == 40 || c == 41 ||
  c == 124 || c == 91 || c == 93 || c == 123 || c == 125 || c == 94 || c == 36

/-- Models `regexp.QuoteMeta`: escape every special byte with a backslash. -/
def goQuoteMeta (l : List Nat) : List Nat :=
  l.flatMap fun c => if quoteMetaSpecial c then [92, c] else [c]

/-- The source expression `compile` hands to the engine: quote-meta unless a
regexp, wrap in `\b…\b` for word match, wrap in `(?m:…)` for a regexp. -/
def buildExpr (p : PatternInfo) : List Nat :=
  let e1 := if !p.isRegExp then goQuoteMeta p.pattern else p.pattern
  let e2 := if p.isWordMatch then [92, 98] ++ e1 ++ [92, 98] else e1
  if p.isRegExp then [40, 63, 109, 58] ++ e2 ++ [41] else e2

/-- Function `compile`: empty pattern ⇒ no regex and no literal pre-filter; otherwise
build the expression, lower-case it when case-insensitive, compile it, and
derive the literal pre-filter when the engine's own literal prefix is empty
(`deriveLit` abstracts `longestLiteral` over the engine's parsed AST).
Path-pattern compilation is the external `pathmatch` collaborator. -/
def compile (eng : RegexEngine) (deriveLit : List Nat → Option (List Nat))
    (pathCompile : PatternInfo → Option (List Nat → Bool)) (p : PatternInfo) :
    Option ReaderGrep :=
  let reLit? : Option (Option Regex × List Nat) :=
    if p.pattern.isEmpty then some (none, [])
    else
      let expr0 := buildExpr p
      let expr? := if !p.isCaseSensitive then eng.lowerExpr expr0 else some expr0
      match expr? with
      | none => none
      | some expr =>
        match eng.compileRe expr with
        | none => none
        | some re =>
          if (eng.litPre expr).isEmpty then
            match deriveLit expr with
            | none => none
            | some lit => some (some re, lit)
          else some (some re, [])
  match reLit? with
  | none => none
  | some rl =>
    match pathCompile p with
    | none => none
    | some mp =>
      some { re := rl.1, ignoreCase := !p.isCaseSensitive, matchPath := mp,
             literalSubstring := rl.2 }

/-! ### The regex AST (`regexp/syntax`) and the two AST walkers

`syntax.Regexp` nodes, with the fields the source reads: the op, the rune
data (`Rune`), the fold-case flag on literals (`Flags & FoldCase`), `Min`
for repetitions, and the children `Sub`.  Char-class rune data is kept as
the flat list of inclusive range endpoints, exactly as in `Rune`. -/

inductive Rx where
  | lit (runes : List Nat) (foldCase : Bool)
  | cc (runes : List Nat)
  | emptyStr
  | anyCharNotNL
  | anyChar
  | beginLine
  | endLine
  | beginText
  | endText
  | wordBoundary
  | noWordBoundary
  | noMatch
  | cap (sub : Rx)
  | star (sub : Rx)
  | plus (sub : Rx)
  | quest (sub : Rx)
  | rep (mn : Nat) (mx : Int) (sub : Rx)
  | cat (subs : List Rx)
  | alt (subs : List Rx)

/-- Constant `utf8.MaxRune`. -/
def maxRune : Nat := 1114111

/-- Models `unicode.ToLower` on the ASCII range (identity elsewhere; this
development only evaluates it on ASCII scalars). -/
def unicodeToLower (c : Nat) : Nat := if 65 ≤ c ∧ c ≤ 90 then c + 32 else c

mutual
/-- Function `longestLiteral`: the longest substring guaranteed (by the source's
reasoning) to appear in any match of `re`. -/
def longestLiteral : Rx → List Nat
  | .lit runes _ => runes
  | .cap sub => longestLiteral sub
  | .plus sub => longestLiteral sub
  | .rep mn _ sub => if 1 ≤ mn then longestLiteral sub else []
  | .cat subs => longestLiteralCat subs []
  | _ => []

/-- The `OpConcat` loop of `longestLiteral`: keep the first child result of
maximal length. -/
def longestLiteralCat : List Rx → List Nat → List Nat
  | [], longest => longest
  | sub :: rest, longest =>
    let l := longestLiteral sub
    longestLiteralCat rest (if longest.length < l.length then l else longest)
end

/-! #### `lowerRegexpASCII` -/

/-- The exclusion-class heuristic: the class's ranges start at 0, end at
`utf8.MaxRune`, and there are at least two ranges. -/
def isExclusion (runes : List Nat) : Bool :=
  4 ≤ runes.length && runes.head? == some 0 && runes.getLast? == some maxRune

/-- The first loop of the exclusion branch: walk the gaps between included
ranges (`Rune[1],Rune[2]`, `Rune[3],Rune[4]`, …; input is `Rune` minus its
head), clamp each gap to `('A'-1, 'Z'+1)`, and map it to lower case.  The
result is the flat `excluded` list of exclusive ranges. -/
def excludedGaps : List Nat → List Nat
  | a :: b :: rest =>
    (if 90 < a ∨ b < 65 then []
     else
       let a' := if a < 65 then 64 else a
       let b' := if 90 < b then 91 else b
       [a' + 32, b' + 32]) ++ excludedGaps rest
  | _ => []

/-- The inner `for` of the rebuild loop: drop `excluded` pairs whose upper
end lies at or before the current range start. -/
def dropExcluded (a : Nat) : List Nat → List Nat
  | e0 :: e1 :: rest => if e1 ≤ a then dropExcluded a rest else e0 :: e1 :: rest
  | l => l

/-- The second loop of the exclusion branch: copy the included ranges
across, splitting a range on (at most) the first intersecting `excluded`
pair — exactly as the source does. -/
def rebuild : List Nat → List Nat → List Nat
  | a :: b :: rest, excl =>
    let excl' := dropExcluded a excl
    match excl' with
    | e0 :: e1 :: _ =>
      if b ≤ e0 then a :: b :: rebuild rest excl'
      else
        ((if a ≤ e0 then [a, e0] else []) ++ (if e1 ≤ b then [e1, b] else [])) ++
          rebuild rest excl'
    | _ => a :: b :: rebuild rest excl'
  | [], _ => []
  | [a], _ => [a]

/-- The early-return test of the non-negated branch: some range already
spans `[a, z]`. -/
def containsLowerAZ : List Nat → Bool
  | a :: b :: rest => (a ≤ 97 && 122 ≤ b) || containsLowerAZ rest
  | _ => false

/-- The mutate-or-append loop of the non-negated branch: a range fully
inside `[A, Z]` is lowered in place; a range spilling outside keeps its
place and its `[A, Z]` intersection is lowered and appended at the end. -/
def lowerNonNeg : List Nat → List Nat × List Nat
  | a :: b :: rest =>
    let r := lowerNonNeg rest
    if 90 < a ∨ b < 65 then (a :: b :: r.1, r.2)
    else
      let simple := 65 ≤ a && b ≤ 90
      let a' := unicodeToLower (if a < 65 then 65 else a)
      let b' := unicodeToLower (if 90 < b then 90 else b)
      if simple then (a' :: b' :: r.1, r.2)
      else (a :: b :: r.1, [a', b'] ++ r.2)
  | l => (l, [])

/-- The `OpCharClass` case of `lowerRegexpASCII`. -/
def lowerCharClass (runes : List Nat) : List Nat :=
  if isExclusion runes then rebuild runes (excludedGaps (runes.drop 1))
  else if containsLowerAZ runes then runes
  else
    let r := lowerNonNeg runes
    r.1 ++ r.2

mutual
/-- Function `lowerRegexpASCII`: recurse into the children, then lower literal runes
with `unicode.ToLower` and rewrite char classes.  (The `Rune0` small-array
copy at the end of the source function only mirrors the first two runes
into an inline cache and has no semantic content.) -/
def lowerRegexpASCII : Rx → Rx
  | .lit runes f => .lit (runes.map unicodeToLower) f
  | .cc runes => .cc (lowerCharClass runes)
  | .cap sub => .cap (lowerRegexpASCII sub)
  | .star sub => .star (lowerRegexpASCII sub)
  | .plus sub => .plus (lowerRegexpASCII sub)
  | .quest sub => .quest (lowerRegexpASCII sub)
  | .rep mn mx sub => .rep mn mx (lowerRegexpASCII sub)
  | .cat subs => .cat (lowerRegexpASCIIList subs)
  | .alt subs => .alt (lowerRegexpASCIIList subs)
  | r => r

/-- Mapping `lowerRegexpASCII` over a `Sub` list. -/
def lowerRegexpASCIIList : List Rx → List Rx
  | [] => []
  | sub :: rest => lowerRegexpASCII sub :: lowerRegexpASCIIList rest
end

/-! #### Denotational matching semantics for the AST

The language of an AST node, used as the yardstick for what "the regex can
match".  Zero-width assertions match the empty string (their positional
constraints are not modelled; `longestLiteral` returns `[]` on them, so
every claim below is insensitive to this).  A fold-case literal matches any
string agreeing with it up to ASCII case, which is Go's simple case folding
restricted to ASCII. -/

/-- Byte comparison used by a literal node: exact, or up to ASCII case when
the fold-case flag is set. -/
def foldEqByte (foldCase : Bool) (a b : Nat) : Bool :=
  if foldCase then unicodeToLower a == unicodeToLower b else a == b

/-- Pointwise literal matching. -/
def litMatches (foldCase : Bool) : List Nat → List Nat → Bool
  | [], [] => true
  | a :: l, b :: s => foldEqByte foldCase a b && litMatches foldCase l s
  | _, _ => false

/-- Membership of a rune in a flat range list. -/
def rangesMember (c : Nat) : List Nat → Bool
  | a :: b :: rest => (a ≤ c && c ≤ b) || rangesMember c rest
  | _ => false

mutual
/-- Relation `RMatch re s`: the byte string `s` is in the language of `re`. -/
inductive RMatch : Rx → List Nat → Prop
  | lit (runes : List Nat) (f : Bool) (s : List Nat) (h : litMatches f runes s = true) :
      RMatch (.lit runes f) s
  | cc (runes : List Nat) (c : Nat) (h : rangesMember c runes = true) : RMatch (.cc runes) [c]
  | emptyStr : RMatch .emptyStr []
  | anyCharNotNL (c : Nat) (h : c ≠ 10) : RMatch .anyCharNotNL [c]
  | anyChar (c : Nat) : RMatch .anyChar [c]
  | beginLine : RMatch .beginLine []
  | endLine : RMatch .endLine []
  | beginText : RMatch .beginText []
  | endText : RMatch .endText []
  | wordBoundary : RMatch .wordBoundary []
  | noWordBoundary : RMatch .noWordBoundary []
  | cap {sub : Rx} {s : List Nat} : RMatch sub s → RMatch (.cap sub) s
  | questNone {sub : Rx} : RMatch (.quest sub) []
  | questSome {sub : Rx} {s : List Nat} : RMatch sub s → RMatch (.quest sub) s
  | starNil {sub : Rx} : RMatch (.star sub) []
  | starCons {sub : Rx} {s t : List Nat} :
      RMatch sub s → RMatch (.star sub) t → RMatch (.star sub) (s ++ t)
  | plus {sub : Rx} {s t : List Nat} :
      RMatch sub s → RMatch (.star sub) t → RMatch (.plus sub) (s ++ t)
  | catNil : RMatch (.cat []) []
  | catCons {r : Rx} {rs : List Rx} {s t : List Nat} :
      RMatch r s → RMatch (.cat rs) t → RMatch (.cat (r :: rs)) (s ++ t)
  | alt {r : Rx} {rs : List Rx} {s : List Nat} :
      r ∈ rs → RMatch r s → RMatch (.alt rs) s
  | rep {mn : Nat} {mx : Int} {sub : Rx} {n : Nat} {s : List Nat} :
      PowMatch sub n s → mn ≤ n → (mx < 0 ∨ (n : Int) ≤ mx) → RMatch (.rep mn mx sub) s

/-- Relation `PowMatch sub n s`: such that `s` splits into `n` consecutive matches of `sub`. -/
inductive PowMatch : Rx → Nat → List Nat → Prop
  | zero {sub : Rx} : PowMatch sub 0 []
  | succ {sub : Rx} {n : Nat} {s t : List Nat} :
      RMatch sub s → PowMatch sub n t → PowMatch sub (n + 1) (s ++ t)
end

/-- Predicate `IsSubstr pat s`: such that `pat` occurs contiguously inside `s`. -/
def IsSubstr (pat s : List Nat) : Prop := ∃ u v, s = u ++ pat ++ v

/-- Case-insensitive interpretation of a parse-time-negated char class: the
Go parser folds the written (positive) class before complementing it, so a
rune matches the stored complement ranges case-insensitively exactly when
the rune and its other-case ASCII variant both lie in the stored ranges. -/
def swapCaseASCII (c : Nat) : Nat :=
  if 65 ≤ c ∧ c ≤ 90 then c + 32 else if 97 ≤ c ∧ c ≤ 122 then c - 32 else c

/-- Whether `c` matches a negated class (stored as its complement ranges)
under Go's `(?i)` semantics, for ASCII `c`. -/
def ciNegClassMatch (runes : List Nat) (c : Nat) : Bool :=
  rangesMember c runes && rangesMember (swapCaseASCII c) runes

/-! ### `readAll`

A conforming `io.Reader` is modelled by its remaining content together with
its EOF convention: each `Read` into a buffer of size `k ≥ 1` delivers
`min k remaining` bytes, and `io.EOF` is reported either together with the
read that exhausts the content (`eagerEOF = true`, which the `io.Reader`
contract permits) or on the following call, which then delivers nothing
(`eagerEOF = false`, the convention of `bytes.Reader`).  Both kinds of
reader are passed to `readAll` by the source. -/

/-- Structure modelling a conforming `io.Reader`: its remaining bytes and
whether it reports `io.EOF` together with the read that exhausts them. -/
structure GoReader where
  content : List Nat
  eagerEOF : Bool
deriving DecidableEq, Repr

/-- Method `r.Read(p)` with `len(p) = k` (the source uses `k ≥ 1`): returns
the number of bytes delivered, whether the returned error was `io.EOF`, and
the reader afterwards. -/
def goRead : GoReader → Nat → Nat × Bool × GoReader
  | ⟨[], e⟩, _ => (0, true, ⟨[], e⟩)
  | ⟨b :: t, e⟩, k =>
    let m := min k (b :: t).length
    (m, e && decide (m = (b :: t).length), ⟨(b :: t).drop m, e⟩)

/-- Function `readAll(r, b)` from the source: read `r` into a buffer of
capacity `cap` until EOF.  When the buffer is exhausted the source probes
with a one-byte scratch read and returns a nil error exactly when that
read's error is `io.EOF`; the probe's byte count is discarded
(`_, err := r.Read(scratch)` in the source), so a byte that an eager-EOF
reader delivers together with `io.EOF` is silently dropped and not counted. -/
def readAll (r : GoReader) (cap : Nat) : Nat × Option GoErr :=
  if _hcap : cap = 0 then
    if (goRead r 1).2.1 then (0, none) else (0, some .readerTooLarge)
  else
    if _heof : (goRead r cap).2.1 then ((goRead r cap).1, none)
    else
      let rest := readAll (goRead r cap).2.2 (cap - (goRead r cap).1)
      ((goRead r cap).1 + rest.1, rest.2)
termination_by r.content.length
decreasing_by
  obtain ⟨c, e⟩ := r
  cases c with
  | nil => exact absurd rfl _heof
  | cons b t =>
    simp only [goRead, List.length_cons, List.length_drop]
    omega

/-! ### Derived notions used in theorem statements -/

/-- The true start of the line containing byte position `s`: one past the
last `'\n'` strictly before `s`, or `0`. -/
def tls (buf : List Nat) (s : Nat) : Nat := (lastIndexNl (buf.take s) + 1).toNat

/-- Well-formedness of a match-location list (guaranteed by Go's
`FindAllIndex`): every location lies within the buffer. -/
def locsWithin (buf : List Nat) (locs : List (Nat × Nat)) : Prop :=
  ∀ p ∈ locs, p.1 ≤ p.2 ∧ p.2 ≤ buf.length

/-- Every match location spans no newline byte. -/
def locsSingleLine (buf : List Nat) (locs : List (Nat × Nat)) : Prop :=
  ∀ p ∈ locs, countNl (goSliceN buf p.1 p.2) = 0

/-- The `FindAllIndex` ordering (executable form): locations are
non-overlapping with strictly increasing starts. -/
def locsOrderedB : List (Nat × Nat) → Bool
  | p :: q :: rest => (decide (p.2 ≤ q.1) && decide (p.1 < q.1)) && locsOrderedB (q :: rest)
  | _ => true

/-- The `FindAllIndex` ordering: locations are non-overlapping with strictly
increasing starts. -/
def locsOrdered (locs : List (Nat × Nat)) : Prop := locsOrderedB locs = true

instance (buf : List Nat) (locs : List (Nat × Nat)) : Decidable (locsWithin buf locs) :=
  List.decidableBAll _ locs

instance (buf : List Nat) (locs : List (Nat × Nat)) : Decidable (locsSingleLine buf locs) :=
  List.decidableBAll _ locs

instance (locs : List (Nat × Nat)) : Decidable (locsOrdered locs) :=
  inferInstanceAs (Decidable (locsOrderedB locs = true))

/-- The path-only matches of the fast path: one path-only `FileMatch` per
file passing the path matcher and the regex-on-path check. -/
def passingFiles (rg : ReaderGrep) (files : List SrcFile) : List FileMatch :=
  (files.filter fun f => rg.matchPath f.Name && matchString rg f.Name).map
    fun f => { Path := f.Name, LineMatches := [], LimitHit := false }

/-! ### Concrete instances for witnesses and counterexamples -/

/-- The behaviour of the compiled case-sensitive literal pattern `foo`. -/
def exFooRe : Regex := litRegex 102 [111, 111]

/-- The behaviour of the compiled pattern `(?m:(?i)foo)` (case-insensitive
literal `foo`): occurrences of `foo` in the ASCII-lowercased input. -/
def exCiFooRe : Regex := fun buf => litRegex 102 [111, 111] (bytesToLowerASCII buf)

/-- Matcher for pattern `foo`, `isCaseSensitive = true`. -/
def exRgFoo : ReaderGrep :=
  { re := some exFooRe, ignoreCase := false, matchPath := fun _ => true,
    literalSubstring := [102, 111, 111] }

/-- Matcher for pattern `Foo`/`foo`, `isCaseSensitive = false`: the pattern
has been lower-cased by `compile` and input is lower-cased by `Find`. -/
def exRgFooCI : ReaderGrep :=
  { re := some exFooRe, ignoreCase := true, matchPath := fun _ => true,
    literalSubstring := [102, 111, 111] }

/-- Matcher for pattern `(?i)foo` with `isCaseSensitive = true`: `compile`
derives `literalSubstring = "foo"` from the fold-case literal AST node. -/
def exRgFooFold : ReaderGrep :=
  { re := some exCiFooRe, ignoreCase := false, matchPath := fun _ => true,
    literalSubstring := [102, 111, 111] }

/-- Matcher produced by `compile` for an empty pattern (regex absent). -/
def exRgNil : ReaderGrep :=
  { re := none, ignoreCase := true, matchPath := fun n => n.length == 1,
    literalSubstring := [] }

/-- File contents `"foo bar\nbaz foo\n"`. -/
def exBufTwoLines : List Nat :=
  [102, 111, 111, 32, 98, 97, 114, 10, 98, 97, 122, 32, 102, 111, 111, 10]

/-- The `Rune` data of the parsed class `[^BDx]`: the complement ranges
`[0,'A'] ['C','C'] ['E','w'] ['y',MaxRune]`. -/
def exBdxClass : List Nat := [0, 65, 67, 67, 69, 119, 121, 1114111]

/-- An engine whose calls all fail; `compile` never consults it for an
empty pattern. -/
def trivEngine : RegexEngine :=
  { lowerExpr := fun _ => none, compileRe := fun _ => none, litPre := fun _ => [] }

/-- A path-pattern compilation that accepts one-byte names. -/
def exPathCompile : PatternInfo → Option (List Nat → Bool) :=
  fun _ => some (fun n => n.length == 1)

/-- A `PatternInfo` with an empty pattern. -/
def exEmptyPat : PatternInfo :=
  { pattern := [], isRegExp := false, isWordMatch := false, isCaseSensitive := false,
    pathPatternsAreRegExps := false, pathPatternsAreCaseSensitive := false }

/-- Three archive files (two with one-byte names). -/
def exFilesABC : List SrcFile :=
  [{ Name := [97], Data := [1, 2] }, { Name := [98, 99], Data := [] },
   { Name := [100], Data := [] }]

/-- The two line matches `Find` produces for `exRgFoo` on `exBufTwoLines`. -/
def exMsFoo : List LineMatch :=
  [{ Preview := [102, 111, 111, 32, 98, 97, 114], LineNumber := 0,
     OffsetAndLengths := [(0, 3)], LimitHit := false },
   { Preview := [98, 97, 122, 32, 102, 111, 111], LineNumber := 1,
     OffsetAndLengths := [(4, 3)], LimitHit := false }]

/-- The full `Find` result for `exRgFoo` on `exBufTwoLines`. -/
def exFindResultFoo : List LineMatch × Bool × Option GoErr := (exMsFoo, false, none)

/-- A path-only file match for the file named `"a"`. -/
def exPathFM : FileMatch := { Path := [97], LineMatches := [], LimitHit := false }

/-! ## Theorems -/

/-- C1.  With `ignoreCase` (pattern `Foo`, `isCaseSensitive = false`) on the
file `"FOO\n"`, `Find` matches at `[0, 3)` on line `[0, 3)` but fills
`Preview` from `fileMatchBuf` — the ASCII-lowercased transform buffer — so
the preview is `"foo"` (bytes `102 111 111`), not the original-case line
`"FOO"` (bytes `70 79 79`) that the claim (and the source's own comment
"`fileBuf` is the original data (for Preview)") requires. -/
theorem C1_preview_code_bug :
    Find exRgFooCI [70, 79, 79, 10] =
      some ([{ Preview := [102, 111, 111], LineNumber := 0,
               OffsetAndLengths := [(0, 3)], LimitHit := false }], false, none) ∧
    goSliceN [70, 79, 79, 10] 0 3 = [70, 79, 79] ∧
    ([102, 111, 111] : List Nat) ≠ [70, 79, 79] := by
  refine ⟨by decide, by decide, by decide⟩

/-- C2.  On the file `"foo bar\nbaz foo\n"` with pattern `foo`, the two
returned `LineNumber`s are `0` and `1`, not the `1` and `2` the claim's
1-based counting requires: `hydrateLineNumbers` starts from
`lastLineNumber = 0` and never adds one. -/
theorem C2_counterexample :
    (Find exRgFoo exBufTwoLines).map (fun r => r.1.map LineMatch.LineNumber) = some [0, 1] ∧
    ([0, 1] : List Nat) ≠ [1, 2] := by
  refine ⟨by decide, by decide⟩

/-- C5.  The class `[^BDx]` is stored as the complement ranges
`exBdxClass`.  Case-insensitively (Go folds the written class before
negating) the byte `'D'` (68) must not match.  `lowerRegexpASCII` rewrites
the class so that the lowered input byte `'d'` (100) does match: the
rebuild loop splits the included range `['E','w']` only on the first
intersecting excluded range `('a','c')` and never applies the second one
`('c','e')`, leaving `'d'` inside — so matching the rewritten class over
lowered input is not equivalent to matching the original
case-insensitively. -/
theorem C5_lower_exclusion_code_bug :
    lowerRegexpASCII (.cc exBdxClass) =
      .cc [0, 65, 67, 67, 69, 97, 99, 119, 121, 1114111] ∧
    ciNegClassMatch exBdxClass 68 = false ∧
    rangesMember (asciiLowerByte 68) [0, 65, 67, 67, 69, 97, 99, 119, 121, 1114111] = true := by
  refine ⟨rfl, by decide, by decide⟩

/-- Lemma: `leadsWith` detects exactly the prefixes. -/
theorem leadsWith_iff (p : List Nat) : ∀ l, leadsWith p l = true ↔ ∃ v, l = p ++ v := by
  induction p with
  | nil => intro l; simp [leadsWith]
  | cons a p ih =>
    intro l
    cases l with
    | nil => simp [leadsWith]
    | cons b t =>
      simp only [leadsWith, Bool.and_eq_true, beq_iff_eq, ih, List.cons_append]
      constructor
      · rintro ⟨rfl, v, rfl⟩; exact ⟨v, rfl⟩
      · rintro ⟨v, hv⟩
        injection hv with h1 h2
        exact ⟨h1.symm, v, h2⟩

/-- Lemma: `containsSub` (the source's `bytes.Contains` test) detects exactly the
contiguous substrings. -/
theorem containsSub_iff (sub : List Nat) : ∀ l, containsSub l sub = true ↔ IsSubstr sub l := by
  intro l
  induction l with
  | nil =>
    constructor
    · intro hc
      by_cases hl : leadsWith sub [] = true
      · obtain ⟨v, hv⟩ := (leadsWith_iff sub []).mp hl
        exact ⟨[], v, by simpa using hv⟩
      · simp [containsSub, hl] at hc
    · rintro ⟨u, v, huv⟩
      have h2 : u ++ sub = [] ∧ v = [] := List.append_eq_nil.mp huv.symm
      have h3 : u = [] ∧ sub = [] := List.append_eq_nil.mp h2.1
      rw [h3.2]
      decide
  | cons b t ih =>
    constructor
    · intro hc
      by_cases hl : leadsWith sub (b :: t) = true
      · obtain ⟨v, hv⟩ := (leadsWith_iff sub _).mp hl
        exact ⟨[], v, by simpa using hv⟩
      · have hc' : containsSub t sub = true := by simpa [containsSub, hl] using hc
        obtain ⟨u, v, huv⟩ := ih.mp hc'
        exact ⟨b :: u, v, by simp [huv]⟩
    · rintro ⟨u, v, huv⟩
      by_cases hl : leadsWith sub (b :: t) = true
      · simp [containsSub, hl]
      · cases u with
        | nil =>
          exact absurd ((leadsWith_iff sub (b :: t)).mpr ⟨v, by simpa using huv⟩) hl
        | cons x u =>
          injection huv with h1 h2
          have : containsSub t sub = true := ih.mpr ⟨u, v, h2⟩
          simpa [containsSub, hl] using this

/-- C4.  For the pattern `(?i)foo` (a fold-case literal AST node, reachable
with `isRegExp ∧ isCaseSensitive`), `longestLiteral` returns `"foo"`
ignoring the fold-case flag; the regex matches `"FOO"`, which does not
contain `"foo"`, so the stored literal is not a substring of every match —
and `Find` then wrongly skips the matching file `"FOO"` on the pre-filter,
contradicting the source's own guarantee on `literalSubstring`. -/
theorem C4_literal_prefilter_code_bug :
    longestLiteral (.lit [102, 111, 111] true) = [102, 111, 111] ∧
    RMatch (.lit [102, 111, 111] true) [70, 79, 79] ∧
    ¬ IsSubstr [102, 111, 111] [70, 79, 79] ∧
    exCiFooRe [70, 79, 79] = [(0, 3)] ∧
    Find exRgFooFold [70, 79, 79] = some ([], false, none) := by
  refine ⟨rfl, RMatch.lit _ _ _ (by decide), ?_, by decide, by decide⟩
  intro h
  have := (containsSub_iff [102, 111, 111] [70, 79, 79]).mpr h
  exact absurd this (by decide)

end SearcherProof

namespace SearcherProof

/-- Unfolding of `readAll` at capacity zero: the source probes with a
one-byte scratch read and inspects only its error. -/
theorem readAll_cap0 (r : GoReader) :
    readAll r 0 = if (goRead r 1).2.1 then (0, none) else (0, some .readerTooLarge) := by
  rw [readAll, dif_pos rfl]

/-- Unfolding of `readAll` at positive capacity: one `Read` into the
remaining buffer, returning on `io.EOF` and recursing otherwise. -/
theorem readAll_pos (r : GoReader) (cap : Nat) (hcap : ¬cap = 0) :
    readAll r cap =
      if (goRead r cap).2.1 then ((goRead r cap).1, none)
      else ((goRead r cap).1 + (readAll (goRead r cap).2.2 (cap - (goRead r cap).1)).1,
            (readAll (goRead r cap).2.2 (cap - (goRead r cap).1)).2) := by
  by_cases h : (goRead r cap).2.1 = true
  · rw [readAll, dif_neg hcap, dif_pos h, if_pos h]
  · rw [readAll, dif_neg hcap, dif_neg h, if_neg h]

/-- Sizes and the error behave uniformly through the recursion of `readAll`,
for both reader conventions: the byte count is `min (content length) cap`,
and the error is nil exactly when the content length is at most `cap` plus
the one probe byte an eager-EOF reader delivers together with `io.EOF`. -/
theorem readAll_spec : ∀ (n : Nat) (c : List Nat) (e : Bool), c.length ≤ n → ∀ cap : Nat,
    (readAll ⟨c, e⟩ cap).1 = min c.length cap ∧
    ((readAll ⟨c, e⟩ cap).2 = none ↔
      c.length ≤ cap + (if e = true then 1 else 0)) := by
  intro n
  induction n with
  | zero =>
    intro c e hc cap
    have hnil : c = [] := List.eq_nil_of_length_eq_zero (Nat.le_zero.mp hc)
    subst hnil
    by_cases hcap : cap = 0
    · subst hcap
      rw [readAll_cap0]
      cases e <;> simp [goRead]
    · rw [readAll_pos ⟨[], e⟩ cap hcap]
      cases e <;> simp [goRead]
  | succ n ih =>
    intro c e hc cap
    by_cases hcap : cap = 0
    · subst hcap
      cases c with
      | nil =>
        rw [readAll_cap0]
        cases e <;> simp [goRead]
      | cons b t =>
        rw [readAll_cap0]
        by_cases hB : (goRead ⟨b :: t, e⟩ 1).2.1 = true
        · rw [if_pos hB]
          simp only [goRead, Bool.and_eq_true, decide_eq_true_eq] at hB
          obtain ⟨he, hlen⟩ := hB
          subst he
          refine ⟨by simp, ?_⟩
          constructor
          · intro _
            show (b :: t).length ≤ 0 + 1
            simp only [List.length_cons] at hlen ⊢
            omega
          · intro _
            rfl
        · rw [if_neg hB]
          simp only [goRead, Bool.and_eq_true, decide_eq_true_eq, not_and] at hB
          refine ⟨by simp, ?_⟩
          cases e with
          | false =>
            constructor
            · intro h
              exact absurd h (by simp)
            · intro h
              exfalso
              have h0 : (b :: t).length ≤ 0 + 0 := h
              simp only [List.length_cons] at h0
              omega
          | true =>
            have hlen : ¬min 1 (b :: t).length = (b :: t).length := hB rfl
            constructor
            · intro h
              exact absurd h (by simp)
            · intro h
              exfalso
              have h1 : (b :: t).length ≤ 0 + 1 := h
              simp only [List.length_cons] at h1 hlen
              omega
    · cases c with
      | nil =>
        rw [readAll_pos ⟨[], e⟩ cap hcap]
        cases e <;> simp [goRead]
      | cons b t =>
        rw [readAll_pos ⟨b :: t, e⟩ cap hcap]
        by_cases hB : (goRead ⟨b :: t, e⟩ cap).2.1 = true
        · rw [if_pos hB]
          simp only [goRead, Bool.and_eq_true, decide_eq_true_eq] at hB
          obtain ⟨he, hlen⟩ := hB
          subst he
          refine ⟨?_, ?_⟩
          · simp only [goRead]
            simp only [List.length_cons] at hlen ⊢
            omega
          · constructor
            · intro _
              show (b :: t).length ≤ cap + 1
              simp only [List.length_cons] at hlen ⊢
              omega
            · intro _
              rfl
        · rw [if_neg hB]
          have hdrop : ((b :: t).drop (min cap (b :: t).length)).length ≤ n := by
            simp only [List.length_drop, List.length_cons]
            simp only [List.length_cons] at hc
            omega
          obtain ⟨h1, h2⟩ := ih ((b :: t).drop (min cap (b :: t).length)) e hdrop
            (cap - min cap (b :: t).length)
          refine ⟨?_, ?_⟩
          · simp only [goRead]
            rw [h1]
            simp only [List.length_drop, List.length_cons]
            omega
          · simp only [goRead]
            rw [h2]
            simp only [List.length_drop, List.length_cons]
            cases e <;> simp
            all_goals omega

/-- Counterexample to C9 as stated: a conforming reader that reports EOF
together with its final bytes, holding two bytes against a one-byte buffer,
makes `readAll` return a nil error although the stream still has content
when the buffer is exhausted — the probe read receives the second byte with
`io.EOF`, the source checks only the error, and the byte is silently
dropped and not counted. -/
theorem C9_counterexample :
    readAll ⟨[102, 111], true⟩ 1 = (1, none) ∧
    ¬ (GoReader.mk [102, 111] true).content.length ≤ 1 := by
  refine ⟨?_, by decide⟩
  rw [readAll]
  norm_num [goRead]
  rw [readAll]
  norm_num [goRead]

/-- C9, amended.  For every reader (of either EOF convention) and capacity,
`readAll` returns the byte count `min (content length) cap`, and a nil
error exactly when the reader reports EOF within the capacity plus the
single probe byte: remaining content at most `cap` for a reader reporting
EOF on the call after exhaustion, and at most `cap + 1` for one reporting
EOF together with its final bytes — whose last byte the one-byte probe then
reads and silently discards; otherwise the reader-too-large error fires. -/
theorem C9_readAll_eof_iff (r : GoReader) (cap : Nat) :
    (readAll r cap).1 = min r.content.length cap ∧
    ((readAll r cap).2 = none ↔
      r.content.length ≤ cap + (if r.eagerEOF = true then 1 else 0)) := by
  obtain ⟨c, e⟩ := r
  exact readAll_spec c.length c e le_rfl cap

/-- Every successful return of `Find` carries a nil error: all three
`return` statements of the source write `nil` into `err`. -/
theorem find_err_none : ∀ (rg : ReaderGrep) (buf : List Nat) r,
    Find rg buf = some r → r.2.2 = none := by
  intro rg buf r h
  simp only [Find] at h
  repeat' split at h
  all_goals
    first
      | (injection h with h'; subst h'; rfl)
      | simp at h

/-- C10.  On every input on which they return, `Find` and `FindZip` return
a nil error, so the driver's scanner-error latch can never fire through
them. -/
theorem C10_find_err_nil :
    (∀ (rg : ReaderGrep) (buf : List Nat) r, Find rg buf = some r → r.2.2 = none) ∧
    (∀ (rg : ReaderGrep) (f : SrcFile) p, FindZip rg f = some p → p.2 = none) := by
  refine ⟨find_err_none, ?_⟩
  intro rg f p h
  obtain ⟨r, hr, hrp⟩ := Option.map_eq_some'.mp h
  have := find_err_none rg f.Data r hr
  subst hrp
  exact this

/-- Witness for C10 at a concrete input on which `Find` returns. -/
theorem C10_witness :
    exFindResultFoo.2.2 = none ∧ Find exRgFoo exBufTwoLines = some exFindResultFoo :=
  ⟨C10_find_err_nil.1 exRgFoo exBufTwoLines exFindResultFoo (by decide), by decide⟩

end SearcherProof

namespace SearcherProof

/-- Characterisation of the path-only fast path: starting from `acc` below
the limit, it returns `acc` extended with the passing files truncated to
the remaining room, and `limitHit` exactly when the passing files
overflow that room. -/
theorem fastLoop_eq (rg : ReaderGrep) (limit : Nat) :
    ∀ (files : List SrcFile) (acc : List FileMatch), acc.length ≤ limit →
      fastLoop rg limit files acc =
        (acc ++ (passingFiles rg files).take (limit - acc.length),
         decide (limit - acc.length < (passingFiles rg files).length)) := by
  intro files
  induction files with
  | nil =>
    intro acc hacc
    simp [fastLoop, passingFiles]
  | cons f rest ih =>
    intro acc hacc
    by_cases hp : (rg.matchPath f.Name && matchString rg f.Name) = true
    · have hpass : passingFiles rg (f :: rest) =
          { Path := f.Name, LineMatches := [], LimitHit := false } :: passingFiles rg rest := by
        simp [passingFiles, List.filter_cons, hp]
      by_cases hlt : acc.length < limit
      · have hstep : fastLoop rg limit (f :: rest) acc =
            fastLoop rg limit rest
              (acc ++ [{ Path := f.Name, LineMatches := [], LimitHit := false }]) := by
          simp [fastLoop, hp, hlt]
        rw [hstep, ih _ (by simp; omega), hpass]
        simp only [Prod.mk.injEq, List.length_append, List.length_cons, List.length_nil]
        refine ⟨?_, ?_⟩
        · rw [show limit - acc.length = (limit - (acc.length + 1)) + 1 by omega,
            List.take_succ_cons]
          simp
        · rw [decide_eq_decide]
          omega
      · have heq : acc.length = limit := le_antisymm hacc (not_lt.mp hlt)
        have hstep : fastLoop rg limit (f :: rest) acc = (acc, true) := by
          simp [fastLoop, hp, hlt]
        rw [hstep, hpass]
        rw [show limit - acc.length = 0 by omega]
        simp
    · have hpass : passingFiles rg (f :: rest) = passingFiles rg rest := by
        simp [passingFiles, List.filter_cons, hp]
      have hstep : fastLoop rg limit (f :: rest) acc = fastLoop rg limit rest acc := by
        simp [fastLoop, hp]
      rw [hstep, ih acc hacc, hpass]

/-- The fast path keeps the result list within the limit, and `limitHit`
forces it to be exactly the limit. -/
theorem fastLoop_inv (rg : ReaderGrep) (limit : Nat) (files : List SrcFile) :
    (fastLoop rg limit files []).1.length ≤ limit ∧
    ((fastLoop rg limit files []).2 = true → (fastLoop rg limit files []).1.length = limit) := by
  rw [fastLoop_eq rg limit files [] (by simp)]
  refine ⟨?_, ?_⟩
  · simp only [List.nil_append, List.length_take, List.length_nil, Nat.sub_zero]
    omega
  · intro hh
    simp only [List.length_nil, Nat.sub_zero, decide_eq_true_eq] at hh
    simp only [List.nil_append, List.length_take, List.length_nil, Nat.sub_zero]
    omega

/-- The general path preserves the limit invariants on the shared state. -/
theorem generalLoop_inv (rg : ReaderGrep) (limit : Nat) (pmp : Bool) :
    ∀ (files : List SrcFile) (ms : List FileMatch) (lh : Bool) r,
      ms.length ≤ limit → (lh = true → ms.length = limit) →
      generalLoop rg limit pmp files ms lh = some r →
      r.1.length ≤ limit ∧ (r.2.1 = true → r.1.length = limit) := by
  intro files
  induction files with
  | nil =>
    intro ms lh r h1 h2 h
    simp only [generalLoop] at h
    injection h with h'
    subst h'
    exact ⟨h1, h2⟩
  | cons f rest ih =>
    intro ms lh r h1 h2 h
    simp only [generalLoop] at h
    split at h
    · injection h with h'
      subst h'
      exact ⟨h1, h2⟩
    · split at h
      · exact ih ms lh r h1 h2 h
      · split at h
        · exact absurd h (by simp)
        · injection h with h'
          subst h'
          exact ⟨h1, h2⟩
        · split at h
          · split at h
            · refine ih _ lh r ?_ ?_ h
              · simp only [List.length_append, List.length_cons, List.length_nil]
                omega
              · intro hlh
                have := h2 hlh
                rename_i hlt _
                omega
            · exact ih ms true r h1 (fun _ => le_antisymm h1 (by omega)) h
          · exact ih ms lh r h1 h2 h

/-- C6.  `fileMatchLimit` is clamped into `(0, maxFileMatches]`; on every
interleaving of the worker pool the shared result list never exceeds the
clamped limit and `limitHit` implies it reached exactly the limit; the
same holds for the values `concurrentFind` returns (both paths). -/
theorem C6_limit_invariant (fml : Int) :
    0 < clampLimit fml ∧ clampLimit fml ≤ maxFileMatches ∧
    (∀ st : List FileMatch × Bool, MatchesReach (clampLimit fml) st →
        st.1.length ≤ clampLimit fml ∧ (st.2 = true → st.1.length = clampLimit fml)) ∧
    (∀ (rg : ReaderGrep) (files : List SrcFile) (pmc pmp : Bool) r,
        concurrentFind rg files fml pmc pmp = some r →
        r.1.length ≤ clampLimit fml ∧ (r.2.1 = true → r.1.length = clampLimit fml)) := by
  have hclamp : 0 < clampLimit fml ∧ clampLimit fml ≤ maxFileMatches := by
    unfold clampLimit
    split
    · exact ⟨by simp [maxFileMatches], le_rfl⟩
    · rename_i hcond
      push_neg at hcond
      simp only [maxFileMatches] at hcond ⊢
      omega
  refine ⟨hclamp.1, hclamp.2, ?_, ?_⟩
  · intro st hreach
    induction hreach with
    | init => simp
    | step hr hstep ih =>
      cases hstep with
      | append ms h fm hlt =>
        have ih1 : ms.length ≤ clampLimit fml := by simpa using ih.1
        refine ⟨?_, ?_⟩
        · show (ms ++ [fm]).length ≤ clampLimit fml
          simp only [List.length_append, List.length_cons, List.length_nil]
          omega
        · intro hh
          have ih2 : ms.length = clampLimit fml := by simpa using ih.2 hh
          omega
      | hitLimit ms h hge =>
        have ih1 : ms.length ≤ clampLimit fml := by simpa using ih.1
        exact ⟨ih1, fun _ => le_antisymm ih1 (not_lt.mp hge)⟩
  · intro rg files pmc pmp r h
    simp only [concurrentFind] at h
    split at h <;> split at h
    case isTrue =>
      injection h with h'
      subst h'
      exact ⟨(fastLoop_inv rg (clampLimit fml) files).1,
             (fastLoop_inv rg (clampLimit fml) files).2⟩
    case isFalse =>
      exact generalLoop_inv rg (clampLimit fml) pmp files [] false r (by simp) (by simp) h
    case isTrue =>
      injection h with h'
      subst h'
      exact ⟨(fastLoop_inv rg (clampLimit fml) files).1,
             (fastLoop_inv rg (clampLimit fml) files).2⟩
    case isFalse =>
      exact generalLoop_inv rg (clampLimit fml) pmp files [] false r (by simp) (by simp) h

/-- Witness for C6: the reachable-state and returned-result implications
at concrete inputs. -/
theorem C6_witness :
    ([exPathFM] : List FileMatch).length ≤ clampLimit 2 ∧
    (([], false, none) : List FileMatch × Bool × Option GoErr).1.length ≤ clampLimit 2 :=
  ⟨((C6_limit_invariant 2).2.2.1 ([exPathFM], false)
      (MatchesReach.step MatchesReach.init
        (MatchesStep.append [] false exPathFM (by decide)))).1,
   ((C6_limit_invariant 2).2.2.2 exRgFoo exFilesABC true false ([], false, none)
      (by decide)).1⟩

end SearcherProof

namespace SearcherProof

/-- C3 (amended).  An empty pattern compiles to a matcher with no regex and
no literal pre-filter; and whenever `patternMatchesPaths` is set, the
driver takes the sequential path-only fast path and reports exactly the
files passing the path filters, truncated to the clamped limit, with no
error.  (When `patternMatchesPaths` is not set, the general path runs the
scanner, which dereferences the absent regex — see the counterexample.) -/
theorem C3_empty_pattern_fast_path (eng : RegexEngine)
    (deriveLit : List Nat → Option (List Nat))
    (pathCompile : PatternInfo → Option (List Nat → Bool)) (p : PatternInfo)
    (mp : List Nat → Bool) (hpat : p.pattern = []) (hpc : pathCompile p = some mp) :
    compile eng deriveLit pathCompile p =
      some { re := none, ignoreCase := !p.isCaseSensitive, matchPath := mp,
             literalSubstring := [] } ∧
    ∀ (files : List SrcFile) (fml : Int) (pmc : Bool),
      concurrentFind
          { re := none, ignoreCase := !p.isCaseSensitive, matchPath := mp,
            literalSubstring := [] } files fml pmc true =
        some (((passingFiles
            { re := none, ignoreCase := !p.isCaseSensitive, matchPath := mp,
              literalSubstring := [] } files).take (clampLimit fml)),
          decide (clampLimit fml <
            (passingFiles
              { re := none, ignoreCase := !p.isCaseSensitive, matchPath := mp,
                literalSubstring := [] } files).length), none) := by
  constructor
  · simp [compile, hpat, hpc]
  · intro files fml pmc
    have hcond : (true && (!pmc ||
        ({ re := none, ignoreCase := !p.isCaseSensitive, matchPath := mp,
           literalSubstring := [] } : ReaderGrep).re.isNone)) = true := by
      simp
    simp only [concurrentFind, hcond, if_true]
    rw [fastLoop_eq _ (clampLimit fml) files [] (by simp)]
    simp

/-- C3 counterexample.  With the empty-pattern matcher (regex absent) but
`patternMatchesPaths = false`, the driver takes the general path and the
scanner dereferences the nil regex (`rg.re.FindIndex`), a runtime panic —
modelled as `none` — so the passing file `"a"` is not reported and the run
fails, contrary to the claim's "for every setting … without failing". -/
theorem C3_counterexample :
    concurrentFind exRgNil [{ Name := [97], Data := [98] }] 10 true false = none := by
  decide

/-- Witness for C3 at a concrete engine, pattern and archive. -/
theorem C3_witness :
    compile trivEngine (fun _ => none) exPathCompile exEmptyPat = some exRgNil ∧
    concurrentFind exRgNil exFilesABC 1 false true = some ([exPathFM], true, none) := by
  have h := C3_empty_pattern_fast_path trivEngine (fun _ => none) exPathCompile exEmptyPat
    (fun n => n.length == 1) rfl rfl
  exact ⟨h.1, (h.2 exFilesABC 1 false).trans (by decide)⟩

end SearcherProof

namespace SearcherProof

/-- Membership in an `if` between two lists comes from one of the branches. -/
theorem mem_ite_list {α : Type} {c : Prop} [Decidable c] {x y : List α} {m : α}
    (h : m ∈ (if c then x else y)) : m ∈ x ∨ m ∈ y := by
  by_cases hc : c
  · rw [if_pos hc] at h
    exact Or.inl h
  · rw [if_neg hc] at h
    exact Or.inr h

/-- Every `LineMatch` a single loop iteration emits carries the loop's
`lineLimitHit` flag. -/
theorem findStep_limitHit (buf : List Nat) (llh : Bool) (s e a b c : Nat) :
    ∀ m ∈ (findStep buf llh s e a b c).1, m.LimitHit = llh := by
  intro m hm
  simp only [findStep] at hm
  rw [apply_ite (fun q : List LineMatch × Nat × Nat × Nat => q.1)] at hm
  rcases mem_ite_list hm with h | h
  · simp only [multilinePieces, List.mem_map] at h
    obtain ⟨q, hq, rfl⟩ := h
    rfl
  · simp only [List.mem_singleton] at h
    subst h
    rfl

/-- Every `LineMatch` the loop emits carries the `lineLimitHit` flag. -/
theorem findLoop_limitHit (buf : List Nat) (llh : Bool) :
    ∀ (locs : List (Nat × Nat)) (a b c : Nat) (acc : List LineMatch),
      (∀ m ∈ acc, m.LimitHit = llh) →
      ∀ m ∈ findLoop buf llh locs a b c acc, m.LimitHit = llh := by
  intro locs
  induction locs with
  | nil =>
    intro a b c acc hacc
    simpa [findLoop] using hacc
  | cons p rest ih =>
    intro a b c acc hacc
    obtain ⟨s, e⟩ := p
    simp only [findLoop]
    apply ih
    intro m hm
    rcases List.mem_append.mp hm with h | h
    · exact hacc m h
    · exact findStep_limitHit buf llh s e a b c m h

/-- C7.  Every `LineMatch` emitted by `Find` carries the per-line
`LimitHit` flag, which is true exactly when the number of collected match
locations (`FindAllIndex` capped at `maxFileMatches`) equals `maxOffsets`. -/
theorem C7_line_limit_flag (rg : ReaderGrep) (re : Regex) (buf : List Nat)
    (ms : List LineMatch) (lh : Bool) (err : Option GoErr)
    (hre : rg.re = some re) (hfind : Find rg buf = some (ms, lh, err)) :
    ∀ m ∈ ms,
      m.LimitHit =
        (((re (if rg.ignoreCase then bytesToLowerASCII buf else buf)).take
            maxFileMatches).length == maxOffsets) := by
  simp only [Find, hre] at hfind
  set fmb := (if rg.ignoreCase then bytesToLowerASCII buf else buf) with hfmb
  split at hfind
  · injection hfind with h'
    injection h' with h1 h2
    subst h1
    intro m hm
    exact absurd hm (List.not_mem_nil m)
  · split at hfind
    · injection hfind with h'
      injection h' with h1 h2
      subst h1
      intro m hm
      exact absurd hm (List.not_mem_nil m)
    · injection hfind with h'
      injection h' with h1 h2
      subst h1
      exact findLoop_limitHit fmb _ _ 0 0 0 [] (by simp)

/-- Witness for C7: the first line match for `foo` on the two-line file
has `LimitHit = false`, and two collected locations do not equal
`maxOffsets`. -/
theorem C7_witness :
    ({ Preview := [102, 111, 111, 32, 98, 97, 114], LineNumber := 0,
       OffsetAndLengths := [(0, 3)], LimitHit := false } : LineMatch).LimitHit =
      (((exFooRe (if exRgFoo.ignoreCase then bytesToLowerASCII exBufTwoLines
          else exBufTwoLines)).take maxFileMatches).length == maxOffsets) :=
  C7_line_limit_flag exRgFoo exFooRe exBufTwoLines exMsFoo false none rfl (by decide)
    _ (by decide)

/-- The `OpConcat` loop of `longestLiteral` returns its accumulator or one
of the children's results, never shorter than either. -/
theorem llCat_spec :
    ∀ (subs : List Rx) (acc : List Nat),
      (longestLiteralCat subs acc = acc ∨
        ∃ sub ∈ subs, longestLiteralCat subs acc = longestLiteral sub) ∧
      acc.length ≤ (longestLiteralCat subs acc).length ∧
      ∀ sub ∈ subs, (longestLiteral sub).length ≤ (longestLiteralCat subs acc).length := by
  intro subs
  induction subs with
  | nil =>
    intro acc
    refine ⟨Or.inl (by simp [longestLiteralCat]), by simp [longestLiteralCat], by simp⟩
  | cons sub rest ih =>
    intro acc
    have hunfold : longestLiteralCat (sub :: rest) acc =
        longestLiteralCat rest
          (if acc.length < (longestLiteral sub).length then longestLiteral sub else acc) := by
      simp [longestLiteralCat]
    by_cases hc : acc.length < (longestLiteral sub).length
    · rw [if_pos hc] at hunfold
      obtain ⟨hmem, hmono, hall⟩ := ih (longestLiteral sub)
      refine ⟨?_, ?_, ?_⟩
      · rw [hunfold]
        rcases hmem with h | ⟨s, hs, h⟩
        · exact Or.inr ⟨sub, by simp, h⟩
        · exact Or.inr ⟨s, List.mem_cons_of_mem sub hs, h⟩
      · rw [hunfold]
        omega
      · intro s hs
        rw [hunfold]
        rcases List.mem_cons.mp hs with rfl | hs'
        · exact hmono
        · exact hall s hs'
    · rw [if_neg hc] at hunfold
      obtain ⟨hmem, hmono, hall⟩ := ih acc
      refine ⟨?_, ?_, ?_⟩
      · rw [hunfold]
        rcases hmem with h | ⟨s, hs, h⟩
        · exact Or.inl h
        · exact Or.inr ⟨s, List.mem_cons_of_mem sub hs, h⟩
      · rw [hunfold]
        exact hmono
      · intro s hs
        rw [hunfold]
        rcases List.mem_cons.mp hs with rfl | hs'
        · omega
        · exact hall s hs'

/-- C8.  `longestLiteral` follows the claimed node-kind rules: literal
nodes return their runes; capture, plus, and repetition with `Min ≥ 1`
recurse into the single child; repetition with `Min = 0` and every other
node kind return the empty string; concatenation returns one of its
children's results (or the empty string), of maximal length. -/
theorem C8_longest_literal_rules :
    (∀ (runes : List Nat) (f : Bool), longestLiteral (.lit runes f) = runes) ∧
    (∀ sub, longestLiteral (.cap sub) = longestLiteral sub) ∧
    (∀ sub, longestLiteral (.plus sub) = longestLiteral sub) ∧
    (∀ (mn : Nat) (mx : Int) sub, 1 ≤ mn →
        longestLiteral (.rep mn mx sub) = longestLiteral sub) ∧
    (∀ (mx : Int) sub, longestLiteral (.rep 0 mx sub) = []) ∧
    (∀ subs,
        (longestLiteral (.cat subs) = [] ∨
          ∃ sub ∈ subs, longestLiteral (.cat subs) = longestLiteral sub) ∧
        ∀ sub ∈ subs, (longestLiteral sub).length ≤ (longestLiteral (.cat subs)).length) ∧
    (∀ subs, longestLiteral (.alt subs) = []) ∧
    (∀ sub, longestLiteral (.star sub) = []) ∧
    (∀ sub, longestLiteral (.quest sub) = []) ∧
    (∀ runes, longestLiteral (.cc runes) = []) ∧
    longestLiteral .emptyStr = [] ∧
    longestLiteral .anyChar = [] ∧
    longestLiteral .anyCharNotNL = [] ∧
    longestLiteral .beginLine = [] ∧
    longestLiteral .endLine = [] ∧
    longestLiteral .beginText = [] ∧
    longestLiteral .endText = [] ∧
    longestLiteral .wordBoundary = [] ∧
    longestLiteral .noWordBoundary = [] ∧
    longestLiteral .noMatch = [] := by
  refine ⟨fun _ _ => rfl, fun _ => rfl, fun _ => rfl, ?_, ?_, ?_,
    fun _ => rfl, fun _ => rfl, fun _ => rfl, fun _ => rfl,
    rfl, rfl, rfl, rfl, rfl, rfl, rfl, rfl, rfl, rfl⟩
  · intro mn mx sub h
    simp [longestLiteral, Nat.one_le_iff_ne_zero.mp h]
  · intro mx sub
    simp [longestLiteral]
  · intro subs
    have h := llCat_spec subs []
    have hcat : longestLiteral (.cat subs) = longestLiteralCat subs [] := by
      simp [longestLiteral]
    rw [hcat]
    exact ⟨h.1, h.2.2⟩

/-- Witness for C8: the repetition rule at `Min = 2` and the concatenation
length bound at a concrete child. -/
theorem C8_witness :
    (1 ≤ 2 ∧ longestLiteral (.rep 2 (-1) (.lit [97] false)) =
      longestLiteral (.lit [97] false)) ∧
    (longestLiteral (.lit [98] false)).length ≤
      (longestLiteral (.cat [.lit [98] false])).length :=
  ⟨⟨by decide, C8_longest_literal_rules.2.2.2.1 2 (-1) (.lit [97] false) (by decide)⟩,
   (C8_longest_literal_rules.2.2.2.2.2.1 [.lit [98] false]).2 (.lit [98] false) (by simp)⟩

end SearcherProof

namespace SearcherProof

theorem lastIndexNl_ge (l : List Nat) : -1 ≤ lastIndexNl l := by
  induction l with
  | nil => simp [lastIndexNl]
  | cons b t ih =>
    simp only [lastIndexNl]
    split
    · omega
    · split <;> omega

theorem lastIndexNl_lt_length (l : List Nat) : lastIndexNl l < (l.length : Int) := by
  induction l with
  | nil => simp [lastIndexNl]
  | cons b t ih =>
    simp only [lastIndexNl, List.length_cons]
    split
    · push_cast
      omega
    · split <;> (push_cast; omega)

theorem countNl_cons (b : Nat) (t : List Nat) :
    countNl (b :: t) = countNl t + if b = 10 then 1 else 0 := by
  simp only [countNl, List.count_cons, beq_iff_eq]

theorem lastIndexNl_neg_iff (l : List Nat) : lastIndexNl l = -1 ↔ countNl l = 0 := by
  induction l with
  | nil => simp [lastIndexNl, countNl]
  | cons b t ih =>
    have hge := lastIndexNl_ge t
    rw [countNl_cons]
    simp only [lastIndexNl]
    by_cases hb : b = 10
    · simp only [hb, if_pos rfl]
      norm_num
      intro h
      split at h <;> omega
    · simp only [if_neg hb]
      by_cases ht : 0 ≤ lastIndexNl t
      · rw [if_pos ht]
        constructor
        · intro h
          exact absurd h (by omega)
        · intro h
          have := ih.mpr (by omega)
          exact absurd this (by omega)
      · rw [if_neg ht]
        have hc := ih.mp (by omega)
        simp [hc]

theorem countNl_drop_lastIndex (l : List Nat) :
    countNl (l.drop ((lastIndexNl l + 1).toNat)) = 0 := by
  induction l with
  | nil => simp [lastIndexNl, countNl]
  | cons b t ih =>
    have hge := lastIndexNl_ge t
    simp only [lastIndexNl]
    by_cases ht : 0 ≤ lastIndexNl t
    · rw [if_pos ht]
      have h1 : (lastIndexNl t + 1 + 1).toNat = (lastIndexNl t + 1).toNat + 1 := by omega
      rw [h1, List.drop_succ_cons]
      exact ih
    · rw [if_neg ht]
      have hneg : lastIndexNl t = -1 := by omega
      have hc : countNl t = 0 := (lastIndexNl_neg_iff t).mp hneg
      by_cases hb : b = 10
      · rw [if_pos hb]
        simpa using hc
      · rw [if_neg hb]
        rw [show ((-1 : Int) + 1).toNat = 0 from rfl, List.drop_zero, countNl_cons, hc]
        simp [hb]

theorem lastIndexNl_append (l1 l2 : List Nat) :
    lastIndexNl (l1 ++ l2) =
      if 0 ≤ lastIndexNl l2 then (l1.length : Int) + lastIndexNl l2 else lastIndexNl l1 := by
  induction l1 with
  | nil =>
    have hge2 := lastIndexNl_ge l2
    simp only [List.nil_append, List.length_nil, lastIndexNl]
    split <;> (push_cast; omega)
  | cons b t ih =>
    have hge2 := lastIndexNl_ge l2
    have hget := lastIndexNl_ge t
    simp only [List.cons_append, lastIndexNl, List.append_eq, ih, List.length_cons]
    by_cases h2 : 0 ≤ lastIndexNl l2
    · rw [if_pos h2]
      rw [if_pos (show (0:Int) ≤ (t.length : Int) + lastIndexNl l2 by omega)]
      rw [if_pos h2]
      push_cast
      ring
    · rw [if_neg h2]
      rw [if_neg h2]

end SearcherProof

namespace SearcherProof

theorem countNl_take_add_slice (buf : List Nat) {a b : Nat} (hab : a ≤ b) :
    countNl (buf.take a) + countNl (goSliceN buf a b) = countNl (buf.take b) := by
  have h1 : buf.take a = (buf.take b).take a := by
    rw [List.take_take, min_eq_left hab]
  rw [goSliceN, h1, countNl, countNl, countNl, ← List.count_append, List.take_append_drop]

theorem countNl_slice_split (buf : List Nat) {a b c : Nat} (hab : a ≤ b) (hbc : b ≤ c) :
    countNl (goSliceN buf a c) = countNl (goSliceN buf a b) + countNl (goSliceN buf b c) := by
  have h1 := countNl_take_add_slice buf hab
  have h2 := countNl_take_add_slice buf hbc
  have h3 := countNl_take_add_slice buf (le_trans hab hbc)
  omega

theorem goSliceN_as_take (buf : List Nat) (i j : Nat) :
    goSliceN buf i j = (buf.drop i).take (j - i) := by
  rw [goSliceN, List.drop_take]

theorem goSliceN_nil (buf : List Nat) {i j : Nat} (h : j ≤ i) : goSliceN buf i j = [] := by
  rw [goSliceN_as_take, Nat.sub_eq_zero_of_le h, List.take_zero]

theorem tls_le (buf : List Nat) (s : Nat) : tls buf s ≤ s := by
  have h1 := lastIndexNl_lt_length (buf.take s)
  have h2 := List.length_take_le s buf
  rw [tls]
  omega

theorem countNl_tls_window (buf : List Nat) (s : Nat) :
    countNl (goSliceN buf (tls buf s) s) = 0 := by
  have h : goSliceN buf (tls buf s) s = (buf.take s).drop ((lastIndexNl (buf.take s) + 1).toNat) := by
    rw [goSliceN, tls]
  rw [h]
  exact countNl_drop_lastIndex (buf.take s)

theorem countNl_take_tls (buf : List Nat) (s : Nat) :
    countNl (buf.take (tls buf s)) = countNl (buf.take s) := by
  have h1 := countNl_take_add_slice buf (tls_le buf s)
  have h2 := countNl_tls_window buf s
  omega

theorem lastIndexNl_take_mono (buf : List Nat) {s t : Nat} (hst : s ≤ t) :
    lastIndexNl (buf.take s) ≤ lastIndexNl (buf.take t) := by
  have hsplit : buf.take t = buf.take s ++ goSliceN buf s t := by
    have h1 : buf.take s = (buf.take t).take s := by
      rw [List.take_take, min_eq_left hst]
    rw [goSliceN, h1, List.take_append_drop]
  rw [hsplit, lastIndexNl_append]
  have h1 := lastIndexNl_lt_length (buf.take s)
  have h2 := lastIndexNl_ge (goSliceN buf s t)
  split <;> omega

theorem tls_mono (buf : List Nat) {s t : Nat} (hst : s ≤ t) : tls buf s ≤ tls buf t := by
  have := lastIndexNl_take_mono buf hst
  rw [tls, tls]
  omega

theorem window_lastIndex (buf : List Nat) {w s : Nat} (hw : w ≤ tls buf s) (hws : w ≤ s)
    (hsl : s ≤ buf.length) :
    (w : Int) + lastIndexNl (goSliceN buf w s) = (tls buf s : Int) - 1 := by
  have hwl : w ≤ buf.length := le_trans hws hsl
  have hlen : (buf.take w).length = w := List.length_take_of_le hwl
  have hsplit : buf.take s = buf.take w ++ goSliceN buf w s := by
    have h1 : buf.take w = (buf.take s).take w := by
      rw [List.take_take, min_eq_left hws]
    rw [goSliceN, h1, List.take_append_drop]
  have happ := lastIndexNl_append (buf.take w) (goSliceN buf w s)
  rw [← hsplit, hlen] at happ
  have hgew := lastIndexNl_ge (buf.take w)
  have hgewin := lastIndexNl_ge (goSliceN buf w s)
  have hltw := lastIndexNl_lt_length (buf.take w)
  rw [hlen] at hltw
  by_cases hwin : 0 ≤ lastIndexNl (goSliceN buf w s)
  · rw [if_pos hwin] at happ
    rw [tls, happ]
    omega
  · rw [if_neg hwin] at happ
    have : tls buf s ≤ w := by
      rw [tls, happ]
      omega
    have htls : tls buf s = w := le_antisymm this hw
    rw [htls]
    omega

end SearcherProof

namespace SearcherProof

theorem firstNlIdx_none_iff (l : List Nat) : firstNlIdx l = none ↔ countNl l = 0 := by
  induction l with
  | nil => simp [firstNlIdx, countNl]
  | cons b t ih =>
    rw [countNl_cons]
    simp only [firstNlIdx]
    by_cases hb : b = 10
    · simp [hb]
    · simp only [if_neg hb, Option.map_eq_none', ih]
      omega

theorem firstNlIdx_take (l : List Nat) :
    ∀ f, firstNlIdx l = some f → countNl (l.take f) = 0 := by
  induction l with
  | nil => intro f h; simp [firstNlIdx] at h
  | cons b t ih =>
    intro f h
    simp only [firstNlIdx] at h
    by_cases hb : b = 10
    · rw [if_pos hb] at h
      injection h with h'
      subst h'
      simp [countNl]
    · rw [if_neg hb] at h
      rw [Option.map_eq_some'] at h
      obtain ⟨g, hg, rfl⟩ := h
      rw [List.take_succ_cons, countNl_cons, ih g hg]
      simp [hb]

theorem firstNlIdx_lt_length (l : List Nat) :
    ∀ f, firstNlIdx l = some f → f < l.length := by
  induction l with
  | nil => intro f h; simp [firstNlIdx] at h
  | cons b t ih =>
    intro f h
    simp only [firstNlIdx] at h
    by_cases hb : b = 10
    · rw [if_pos hb] at h
      injection h with h'
      subst h'
      simp
    · rw [if_neg hb] at h
      rw [Option.map_eq_some'] at h
      obtain ⟨g, hg, rfl⟩ := h
      have := ih g hg
      simp only [List.length_cons]
      omega

theorem splitNNl_no_nl (n : Nat) (l : List Nat) (h : countNl l = 0) :
    splitNNl (n + 2) l = [l] := by
  have : firstNlIdx l = none := (firstNlIdx_none_iff l).mpr h
  simp [splitNNl, this]

theorem indexNl_none (l : List Nat) (h : firstNlIdx l = none) : indexNl l = -1 := by
  simp [indexNl, h]

theorem indexNl_some (l : List Nat) (f : Nat) (h : firstNlIdx l = some f) :
    indexNl l = (f : Int) := by
  simp [indexNl, h]

end SearcherProof

namespace SearcherProof

theorem splitNNl_no_nl_ge {n : Nat} (hn : 2 ≤ n) (l : List Nat) (h : countNl l = 0) :
    splitNNl n l = [l] := by
  obtain ⟨m, rfl⟩ : ∃ m, n = m + 2 := ⟨n - 2, by omega⟩
  have hf : firstNlIdx l = none := (firstNlIdx_none_iff l).mpr h
  simp [splitNNl, hf]

theorem findStep_spec (buf : List Nat) (llh : Bool) (s e lastLN lastMI lastLSI : Nat)
    (hse : s ≤ e) (hel : e ≤ buf.length)
    (hnl : countNl (goSliceN buf s e) = 0)
    (hLSI : lastLSI ≤ tls buf s) :
    ((findStep buf llh s e lastLN lastMI lastLSI).1.map LineMatch.LineNumber =
        [lastLN + countNl (goSliceN buf lastMI s)]) ∧
    (findStep buf llh s e lastLN lastMI lastLSI).2.1 =
        lastLN + countNl (goSliceN buf lastMI s) ∧
    (s < buf.length →
      countNl (buf.take (findStep buf llh s e lastLN lastMI lastLSI).2.2.1) =
          countNl (buf.take s) ∧
      (findStep buf llh s e lastLN lastMI lastLSI).2.2.1 ≤ e ∧
      (findStep buf llh s e lastLN lastMI lastLSI).2.2.2 ≤ tls buf s) := by
  have hts := tls_le buf s
  have hLSIs : lastLSI ≤ s := le_trans hLSI hts
  have hsl : s ≤ buf.length := le_trans hse hel
  have hls0w := window_lastIndex buf hLSI hLSIs hsl
  simp only [findStep]
  set ls0 : Int := (lastLSI : Int) + lastIndexNl (goSliceN buf lastLSI s) with hls0d
  set lsiN : Nat := if 0 < ls0 then (ls0 + 1).toNat else lastLSI with hlsiD
  set ls1 : Int := if ls0 < (buf.length : Int) - 1 ∧ 0 < buf.length then ls0 + 1 else ls0
    with hls1d
  set le0 : Int := (e : Int) + indexNl (buf.drop e) with hle0d
  set lineStart : Nat := if ls1 < 0 then s else ls1.toNat with hlsd
  set lineEnd : Nat := if le0 < 0 then e else le0.toNat with hled
  have hls0v : ls0 = (tls buf s : Int) - 1 := by rw [hls0d]; exact hls0w
  have hse0 : countNl (goSliceN buf (tls buf s) e) = 0 := by
    have h1 := countNl_slice_split buf hts hse
    have h2 := countNl_tls_window buf s
    omega
  have hone : countNl (goSliceN buf lineStart lineEnd) = 0 := by
    by_cases hslt : s < buf.length
    · have htlt : tls buf s < buf.length := lt_of_le_of_lt hts hslt
      have hls1v : ls1 = (tls buf s : Int) := by
        rw [hls1d, hls0v, if_pos (by omega)]
        ring
      have hlsv : lineStart = tls buf s := by
        rw [hlsd, hls1v, if_neg (by omega)]
        omega
      cases hfe : firstNlIdx (buf.drop e) with
      | none =>
        have hle0v : le0 = (e : Int) - 1 := by
          rw [hle0d, indexNl_none _ hfe]
          ring
        by_cases he0 : e = 0
        · have hlev : lineEnd = 0 := by
            rw [hled, hle0v, if_pos (by omega)]
            exact he0
          rw [hlev, goSliceN_nil buf (Nat.zero_le _)]
          simp [countNl]
        · have hlev : lineEnd = e - 1 := by
            rw [hled, hle0v, if_neg (by omega)]
            omega
          rw [hlsv, hlev]
          by_cases hte : tls buf s ≤ e - 1
          · have h1 := countNl_slice_split buf hte (by omega : e - 1 ≤ e)
            omega
          · rw [goSliceN_nil buf (by omega)]
            simp [countNl]
      | some f =>
        have hle0v : le0 = (e : Int) + f := by rw [hle0d, indexNl_some _ f hfe]
        have hlev : lineEnd = e + f := by
          rw [hled, hle0v, if_neg (by omega)]
          omega
        have hef : countNl (goSliceN buf e (e + f)) = 0 := by
          rw [goSliceN_as_take, show e + f - e = f by omega]
          exact firstNlIdx_take _ f hfe
        rw [hlsv, hlev]
        have h1 := countNl_slice_split buf (le_trans hts hse) (by omega : e ≤ e + f)
        omega
    · have hsl' : s = buf.length := by omega
      have hel' : e = buf.length := by omega
      have hfe : firstNlIdx (buf.drop e) = none := by
        rw [hel', List.drop_length]
        rfl
      have hle0v : le0 = (e : Int) - 1 := by
        rw [hle0d, indexNl_none _ hfe]
        ring
      by_cases hl0 : buf.length = 0
      · have hlev : lineEnd = 0 := by
          rw [hled, hle0v, if_pos (by omega)]
          omega
        rw [hlev, goSliceN_nil buf (Nat.zero_le _)]
        simp [countNl]
      · have hlev : lineEnd = buf.length - 1 := by
          rw [hled, hle0v, if_neg (by omega)]
          omega
        by_cases htl : tls buf s = buf.length
        · have hls1v : ls1 = (buf.length : Int) - 1 := by
            rw [hls1d, hls0v, htl, if_neg (by omega)]
          have hlsv : lineStart = buf.length - 1 := by
            rw [hlsd, hls1v, if_neg (by omega)]
            omega
          rw [hlsv, hlev, goSliceN_nil buf (le_refl _)]
          simp [countNl]
        · have htlt : tls buf s < buf.length := by omega
          have hls1v : ls1 = (tls buf s : Int) := by
            rw [hls1d, hls0v, if_pos (by omega)]
            ring
          have hlsv : lineStart = tls buf s := by
            rw [hlsd, hls1v, if_neg (by omega)]
            omega
          rw [hlsv, hlev]
          have hw := countNl_tls_window buf s
          have h1 := countNl_slice_split buf
            (show tls buf s ≤ buf.length - 1 by omega)
            (show buf.length - 1 ≤ s by omega)
          omega
  have hsingle := splitNNl_no_nl_ge (n := maxLineMatches + 1) (by norm_num [maxLineMatches])
    (goSliceN buf lineStart lineEnd) hone
  rw [hsingle]
  rw [if_neg (by simp)]
  refine ⟨by simp [hydrateLineNumbers], by simp [hydrateLineNumbers], ?_⟩
  intro hslt
  simp only [hydrateLineNumbers]
  have htlt : tls buf s < buf.length := lt_of_le_of_lt hts hslt
  have hls1v : ls1 = (tls buf s : Int) := by
    rw [hls1d, hls0v, if_pos (by omega)]
    ring
  have hlsv : lineStart = tls buf s := by
    rw [hlsd, hls1v, if_neg (by omega)]
    omega
  refine ⟨?_, ?_, ?_⟩
  · rw [hlsv]
    exact countNl_take_tls buf s
  · rw [hlsv]
    omega
  · rw [hlsiD, hls0v]
    split
    · omega
    · exact hLSI

end SearcherProof

namespace SearcherProof

/-- Unfolding of the location ordering on two or more locations. -/
theorem locsOrdered_cons_cons {p q : Nat × Nat} {rest : List (Nat × Nat)} :
    locsOrdered (p :: q :: rest) ↔ (p.2 ≤ q.1 ∧ p.1 < q.1) ∧ locsOrdered (q :: rest) := by
  simp [locsOrdered, locsOrderedB]

theorem findLoop_lineNumbers (buf : List Nat) (llh : Bool) :
    ∀ (locs : List (Nat × Nat)) (lastLN lastMI lastLSI : Nat) (acc : List LineMatch),
      locsWithin buf locs → locsSingleLine buf locs → locsOrdered locs →
      (∀ p rest2, locs = p :: rest2 → lastLSI ≤ tls buf p.1 ∧ lastMI ≤ p.1) →
      countNl (buf.take lastMI) = lastLN →
      (findLoop buf llh locs lastLN lastMI lastLSI acc).map LineMatch.LineNumber =
        acc.map LineMatch.LineNumber ++ locs.map (fun p => countNl (buf.take p.1)) := by
  intro locs
  induction locs with
  | nil =>
    intro lastLN lastMI lastLSI acc _ _ _ _ _
    simp [findLoop]
  | cons p rest ih =>
    intro lastLN lastMI lastLSI acc hwin hsl hord hhead hinv
    obtain ⟨s, e⟩ := p
    obtain ⟨hLSI, hMI⟩ := hhead (s, e) rest rfl
    dsimp only at hLSI hMI
    have hse : s ≤ e := (hwin (s, e) (List.mem_cons_self _ _)).1
    have hel : e ≤ buf.length := (hwin (s, e) (List.mem_cons_self _ _)).2
    have hnl : countNl (goSliceN buf s e) = 0 := hsl (s, e) (List.mem_cons_self _ _)
    obtain ⟨hmap, hln, hrest⟩ := findStep_spec buf llh s e lastLN lastMI lastLSI hse hel hnl hLSI
    have hlnv : lastLN + countNl (goSliceN buf lastMI s) = countNl (buf.take s) := by
      have := countNl_take_add_slice buf hMI
      omega
    simp only [findLoop]
    cases rest with
    | nil =>
      simp only [findLoop]
      rw [List.map_append, hmap, hlnv]
      simp
    | cons q rest2 =>
      have hqwin : q.1 ≤ q.2 ∧ q.2 ≤ buf.length :=
        hwin q (List.mem_cons_of_mem _ (List.mem_cons_self _ _))
      have hsq : e ≤ q.1 ∧ s < q.1 := (locsOrdered_cons_cons.mp hord).1
      have hslen : s < buf.length := by omega
      obtain ⟨hinv1, hmile, hlsile⟩ := hrest hslen
      have hih := ih (findStep buf llh s e lastLN lastMI lastLSI).2.1
        (findStep buf llh s e lastLN lastMI lastLSI).2.2.1
        (findStep buf llh s e lastLN lastMI lastLSI).2.2.2
        (acc ++ (findStep buf llh s e lastLN lastMI lastLSI).1)
        (fun r hr => hwin r (List.mem_cons_of_mem _ hr))
        (fun r hr => hsl r (List.mem_cons_of_mem _ hr))
        (locsOrdered_cons_cons.mp hord).2
        ?_ ?_
      · rw [hih, List.map_append, hmap, hlnv]
        simp
      · intro r rest3 hr
        have hrq : r = q := by
          injection hr with h1 h2
          exact h1.symm
        subst hrq
        constructor
        · exact le_trans hlsile (tls_mono buf (by omega))
        · omega
      · rw [hinv1, hln]
        omega

end SearcherProof

namespace SearcherProof

/-- C2 (amended).  On well-formed, single-line match locations, every
`LineMatch` returned by `Find` carries as `LineNumber` the 0-based count
of the line containing the match's start byte: the number of newline bytes
before the start in the searched buffer.  A match on the first line has
`LineNumber` 0, and a match on physical line `n` has `LineNumber`
`n - 1` (not `n`, as the claim's 1-based counting states). -/
theorem C2_lineNumber_zero_based (rg : ReaderGrep) (re : Regex) (buf fmb : List Nat)
    (ms : List LineMatch) (lh : Bool) (err : Option GoErr)
    (hre : rg.re = some re)
    (hfmb : fmb = if rg.ignoreCase then bytesToLowerASCII buf else buf)
    (hcont : containsSub fmb rg.literalSubstring = true)
    (hw : locsWithin fmb ((re fmb).take maxFileMatches))
    (hsl : locsSingleLine fmb ((re fmb).take maxFileMatches))
    (hord : locsOrdered ((re fmb).take maxFileMatches))
    (hfind : Find rg buf = some (ms, lh, err)) :
    ms.map LineMatch.LineNumber =
      ((re fmb).take maxFileMatches).map (fun p => countNl (fmb.take p.1)) := by
  simp only [Find, hre] at hfind
  rw [← hfmb] at hfind
  rw [hcont] at hfind
  simp only [Bool.true_eq_false, if_false] at hfind
  cases hh : (re fmb).head? with
  | none =>
    rw [hh] at hfind
    injection hfind with h'
    injection h' with h1 h2
    subst h1
    have : re fmb = [] := List.head?_eq_none_iff.mp hh
    simp [this]
  | some p0 =>
    rw [hh] at hfind
    injection hfind with h'
    injection h' with h1 h2
    subst h1
    have := findLoop_lineNumbers fmb
      (((re fmb).take maxFileMatches).length == maxOffsets)
      ((re fmb).take maxFileMatches) 0 0 0 [] hw hsl hord
      (fun p rest2 _ => ⟨Nat.zero_le _, Nat.zero_le _⟩) (by simp [countNl])
    rw [this]
    simp

end SearcherProof

namespace SearcherProof

/-- Witness for C2 (amended): the two matches of `foo` on
`"foo bar\nbaz foo\n"` get the 0-based line numbers 0 and 1. -/
theorem C2_witness :
    containsSub exBufTwoLines exRgFoo.literalSubstring = true ∧
    exMsFoo.map LineMatch.LineNumber =
      ((exFooRe exBufTwoLines).take maxFileMatches).map
        (fun p => countNl (exBufTwoLines.take p.1)) :=
  ⟨by decide,
   C2_lineNumber_zero_based exRgFoo exFooRe exBufTwoLines exBufTwoLines exMsFoo false none
     rfl rfl (by decide) (by decide) (by decide) (by decide) (by decide)⟩

end SearcherProof
